import Mathlib

/-!
Verification development for the vitest VS Code extension
(test topology and run-state reconciliation engine).

Shallow embedding of:
* the task matcher and run-state synchronizer of `src/watch.ts`
  (`TestWatcher.syncTestStatusToVsCode`, inner functions `sync` and `matchTask`,
  and `TestWatcher.runFiles`),
* the static test discovery of `src/discover.ts`
  (`discoverTestFromFileContent` and its inner `getParent`),
* the websocket client state of the copied vitest client
  (`StateManager.updateTasks`),
* the continuous-run scheduling of `src/worker/watcher.ts`
  (`VitestWatcher`'s `scheduleRerun` override and `isTestFileWatched`).

External collaborators (the Fuse.js fuzzy search, the VS Code `TestRun`
object, the vitest runtime process) are abstracted: Fuse becomes an
arbitrary function parameter, `run.*` calls become emitted events.
-/

namespace VitestExplorer

/-! ## Runtime task model (the vitest `Task` type as used by `watch.ts`) -/

/-- `TaskState` of a runtime result (`task.result.state` in vitest). -/
inductive RState where
  | pass | fail | skip | todo | run | only
deriving DecidableEq, Repr

/-- The fields of `task.result` that `watch.ts` reads: the state, the optional
duration, and `result.error?.message` (absent when there is no error object or
no message). -/
structure TResult where
  state : RState
  duration : Option Nat
  errorMessage : Option String
deriving DecidableEq, Repr

/-- `task.type` in vitest: `"suite"` or `"test"`. -/
inductive RType where
  | suite | test
deriving DecidableEq, Repr

/-- A runtime task tree (`Task` from vitest): a test leaf carries an optional
result; a suite carries its own (unused by `sync`) result and child tasks. -/
inductive RTask where
  | test (name : String) (result : Option TResult)
  | suite (name : String) (result : Option TResult) (tasks : List RTask)
deriving Repr

/-! ## Static tree data (`TestDescribe` / `TestCase` from `TestData.ts`,
as consumed by `watch.ts`: only the `pattern` field and, for describes,
the `children` list matter to the matcher and synchronizer). -/

/-- A static tree node: `TestDescribe` (with children) or `TestCase`.
`pattern` is the display name used for matching. -/
inductive TData where
  | describe (pattern : String) (children : List TData)
  | testCase (pattern : String)
deriving Repr

/-- The `pattern` field of a `TestDescribe` / `TestCase`. -/
def TData.pattern : TData → String
  | .describe p _ => p
  | .testCase p => p

/-- `candidate instanceof TestDescribe`. -/
def TData.isDescribe : TData → Bool
  | .describe _ _ => true
  | .testCase _ => false

/-- `candidate instanceof TestCase`. -/
def TData.isCase : TData → Bool
  | .describe _ _ => false
  | .testCase _ => true

/-- `(data as TestDescribe).children` as evaluated by JavaScript: a
`TestCase` has no `children` property, so the cast yields `undefined` and
`new Set(undefined)` is the empty set. -/
def TData.childrenOf : TData → List TData
  | .describe _ cs => cs
  | .testCase _ => []

/-! ## The task matcher (`matchTask` in `src/watch.ts`).

The candidate pool is a JavaScript `Set` iterated in insertion order; we model
it as a `List TData`.  The Fuse.js approximate search is an external library
and is abstracted as an arbitrary function `fuse : List TData → String →
Option TData` standing for
`new Fuse(Array.from(candidates), { keys: ["pattern"] }).search(name)[0]?.item`. -/

/-- One candidate is an exact hit for a runtime task when it survives the two
kind checks (`type === "suite"` requires a `TestDescribe`, `type === "test"`
requires a `TestCase`) and its `pattern` equals the task's name. -/
def exactHit (ty : RType) (name : String) (c : TData) : Bool :=
  (match ty with
   | .suite => c.isDescribe
   | .test => c.isCase) && c.pattern == name

/-- The exact phase of `matchTask`: the `for (const candidate of candidates)`
loop with its two `continue`s and the `break` on the first name equality. -/
def matchExact (ty : RType) (name : String) : List TData → Option TData
  | [] => none
  | c :: rest =>
    if ty = .suite ∧ c.isDescribe = false then matchExact ty name rest
    else if ty = .test ∧ c.isCase = false then matchExact ty name rest
    else if c.pattern == name then some c
    else matchExact ty name rest

/-- `candidates.delete(ans)`: the found candidate is the first exact hit in
iteration order, so deleting it by reference removes exactly the first
element satisfying `exactHit`. -/
def removeFirstHit (ty : RType) (name : String) : List TData → List TData
  | [] => []
  | c :: rest =>
    if exactHit ty name c then rest else c :: removeFirstHit ty name rest

/-- `matchTask(task, candidates, type)` from `src/watch.ts`, returning the
matched node (if any) together with the candidate pool after the call
(the JS code mutates the set in place).  On an exact hit the candidate is
deleted from the pool; otherwise the abstracted Fuse search runs over the
whole remaining pool and nothing is deleted. -/
def matchTask (fuse : List TData → String → Option TData)
    (ty : RType) (name : String) (pool : List TData) :
    Option TData × List TData :=
  match matchExact ty name pool with
  | some ans => (some ans, removeFirstHit ty name pool)
  | none => (fuse pool name, pool)

/-! ## The run-state synchronizer (`sync` in `src/watch.ts`).

`run.passed` / `run.failed` / `run.skipped` / `run.started` calls are modelled
as emitted events.  A JavaScript `TypeError` (reading a property of the
`undefined` returned by a failed match) is modelled as `Except.error ()`; it
aborts the rest of the pass exactly as the exception does (it is caught only
by the `try`/`catch` around the whole event handler). -/

/-- One `run.*` call made by `sync`, recording the matched node it targets. -/
inductive SyncEvent where
  | passed (target : TData) (duration : Option Nat)
  | failed (target : TData) (message : String)
  | skipped (target : TData)
  | started (target : TData)
deriving Repr

/-- `sync(run, vscode, vitest)` from `src/watch.ts`.  `pool` is the `Set`
built from the vscode children; it is threaded through the loop because
`matchTask` deletes exact hits from it.  `finished` is the `finished`
parameter of `syncTestStatusToVsCode`. -/
def sync (fuse : List TData → String → Option TData) (finished : Bool) :
    List TData → List RTask → Except Unit (List SyncEvent)
  | _, [] => .ok []
  | pool, .test name result :: ts =>
    let m := matchTask fuse .test name pool
    match result with
    | none =>
      if finished then
        match m.1 with
        | none => .error ()
        | some d => (sync fuse finished m.2 ts).map (SyncEvent.skipped d :: ·)
      else sync fuse finished m.2 ts
    | some r =>
      match r.state, m.1 with
      | .pass, some d =>
          (sync fuse finished m.2 ts).map (SyncEvent.passed d r.duration :: ·)
      | .pass, none => .error ()
      | .fail, some d =>
          (sync fuse finished m.2 ts).map
            (SyncEvent.failed d (r.errorMessage.getD "") :: ·)
      | .fail, none => .error ()
      | .skip, some d =>
          (sync fuse finished m.2 ts).map (SyncEvent.skipped d :: ·)
      | .skip, none => .error ()
      | .todo, some d =>
          (sync fuse finished m.2 ts).map (SyncEvent.skipped d :: ·)
      | .todo, none => .error ()
      | .run, some d =>
          (sync fuse finished m.2 ts).map (SyncEvent.started d :: ·)
      | .run, none => .error ()
      | .only, _ => sync fuse finished m.2 ts
  | pool, .suite name _ tasks :: ts =>
    let m := matchTask fuse .suite name pool
    match m.1 with
    | none => .error ()
    | some d => do
      let evs ← sync fuse finished d.childrenOf tasks
      let rest ← sync fuse finished m.2 ts
      .ok (evs ++ rest)
termination_by _ l => sizeOf l
decreasing_by all_goals (simp_wf; try omega)

/-- True when the `sync` branch for this result dereferences the matched
node (`data.item`): every concrete result state except `only`, and an absent
result exactly when the run is finished. -/
def touchesMatch (finished : Bool) : Option TResult → Bool
  | none => finished
  | some r =>
    match r.state with
    | .only => false
    | _ => true

/-! ## The websocket client state (`StateManager` in the copied vitest
client, `src/pure/watch/ws-client.ts`).

`idMap : Map<string, Task>` is modelled as an association list with unique
keys in insertion order; `Map.has`/`Map.get` become `List.lookup`. -/

/-- A runtime task as stored in the state manager: the fields other than
`result` stand for everything `updateTasks` must leave untouched. -/
structure STask where
  ttype : RType
  name : String
  result : Option TResult
  logs : List String
deriving DecidableEq, Repr

namespace StateManager

/-- `idMap.get(id)` / `idMap.has(id)` on the association-list model of the
JavaScript `Map`. -/
def mapLookup (id : String) : List (String × STask) → Option STask
  | [] => none
  | e :: m => if e.1 = id then some e.2 else mapLookup id m

/-- `this.idMap.get(id)!.result = result`: replace the `result` field of the
entry stored under `id`, leaving every other field and entry alone. -/
def setResult (id : String) (result : Option TResult) :
    List (String × STask) → List (String × STask)
  | [] => []
  | e :: m =>
    (if e.1 = id then (e.1, { e.2 with result := result }) else e) ::
      setResult id result m

/-- `StateManager.updateTasks(packs)`: for each `(id, result)` pack in order,
if the id is known (`idMap.has(id)`) overwrite that task's `result`,
otherwise do nothing. -/
def updateTasks (idMap : List (String × STask))
    (packs : List (String × Option TResult)) : List (String × STask) :=
  packs.foldl
    (fun m p => if (mapLookup p.1 m).isSome then setResult p.1 p.2 m else m) idMap

end StateManager

/-! ## Continuous-run scheduler (`VitestWatcher` in `src/worker/watcher.ts`).

The `scheduleRerun` override installed over vitest's private scheduler is
modelled as a function from the watcher state and the mutable scheduler
state (`this.changedTests`, `this.invalidates`) to the state the original
`scheduleRerun` is finally called with: the `changedTests` set at that point
is the set of test files the runtime will re-run. -/

/-- The fields of `VitestWatcher` consulted by the `scheduleRerun` override. -/
structure WatcherState where
  enabled : Bool
  watchEveryFile : Bool
  files : List String
  testNamePattern : Option String
deriving Repr

/-- JavaScript `s.startsWith(e)`, character by character. -/
def charsStartWith : List Char → List Char → Bool
  | _, [] => true
  | [], _ :: _ => false
  | c :: cs, d :: ds => c == d && charsStartWith cs ds

/-- JavaScript `testFile.startsWith(file)`. -/
def strStartsWith (s e : String) : Bool :=
  charsStartWith s.data e.data

/-- JavaScript `file[file.length - 1] === '/'`. -/
def lastCharIsSlash (s : String) : Bool :=
  match s.data.getLast? with
  | some c => c == '/'
  | none => false

/-- `VitestWatcher.isTestFileWatched`: a test file is watched when the
explicit list is non-empty and some entry equals the file, or ends in `/`
(`file[file.length - 1] === '/'`) and is a leading piece of the file's path. -/
def isTestFileWatched (files : List String) (testFile : String) : Bool :=
  if files.isEmpty then false
  else files.any (fun file =>
    if file == testFile then true
    else if lastCharIsSlash file then strStartsWith testFile file
    else false)

/-- What the override assigned to `ctx.configOverride.testNamePattern`. -/
inductive NamePatternSet where
  | unset
  | collectOnly
  | value (p : Option String)
deriving DecidableEq, Repr

/-- The observable outcome of one `scheduleRerun(files)` call. -/
structure RerunOutcome where
  changedTests : List String
  invalidates : List String
  namePattern : NamePatternSet
  rerunTriggered : Bool
deriving DecidableEq, Repr

/-- The `scheduleRerun` override of `src/worker/watcher.ts`.  `files` is the
argument of the intercepted call (its head is the trigger file),
`changedTests` and `invalidates` are vitest's accumulated sets for this tick.
Branches: continuous mode off → collect-only bookkeeping (cleared sets for a
non-test trigger, collect name pattern for a test-file trigger); watch-every-
file mode → everything re-runs; explicit list mode → the changed-tests set is
filtered through `isTestFileWatched`, but only when the trigger file is not
itself a changed test file. -/
def scheduleRerun (st : WatcherState) (rerunTriggered : Bool)
    (changedTests invalidates : List String) (files : List String) :
    RerunOutcome :=
  let isTestFileTrigger :=
    match files with
    | [] => false
    | f :: _ => changedTests.contains f
  if st.enabled = false then
    if isTestFileTrigger = false then
      { changedTests := [], invalidates := [], namePattern := .unset,
        rerunTriggered := rerunTriggered }
    else
      { changedTests := changedTests, invalidates := invalidates,
        namePattern := .collectOnly, rerunTriggered := rerunTriggered }
  else
    if st.watchEveryFile then
      { changedTests := changedTests, invalidates := invalidates,
        namePattern := .value st.testNamePattern, rerunTriggered := true }
    else
      { changedTests :=
          if isTestFileTrigger = false then
            changedTests.filter (fun f => isTestFileWatched st.files f)
          else changedTests,
        invalidates := invalidates,
        namePattern := .value st.testNamePattern, rerunTriggered := true }

/-! ## `TestWatcher.runFiles` (`src/watch.ts`).

The VS Code test item tree walked by the inner `started` function. -/

/-- A VS Code `TestItem`: its id, label, range (`undefined` for file items;
for discovered blocks the zero-based `(startLine, startColumn, endLine,
endColumn)` of `new vscode.Range(...)`), and ordered children. -/
inductive TestItem where
  | mk (id : String) (label : String) (range : Option (Nat × Nat × Nat × Nat))
      (children : List TestItem)
deriving Repr

/-- The `id` of a test item. -/
def TestItem.id : TestItem → String
  | .mk i _ _ _ => i

/-- The `children` collection of a test item. -/
def TestItem.children : TestItem → List TestItem
  | .mk _ _ _ cs => cs

mutual
/-- The inner `started(item)` recursion of `runFiles`: report the item as
started, then recurse into all children (preorder). -/
def startedItems : TestItem → List String
  | .mk i _ _ cs => i :: startedItemsList cs
/-- `item.children.forEach((child) => started(child))`. -/
def startedItemsList : List TestItem → List String
  | [] => []
  | x :: xs => startedItems x ++ startedItemsList xs
end

/-- A vitest `File`: its path, its own result, and its task tree. -/
structure VFile where
  filepath : String
  result : Option TResult
  tasks : List RTask
deriving Repr

mutual
/-- `getTasks` from `@vitest/ws-client`: a task together with all tasks
nested below it, in preorder. -/
def getTasks : RTask → List RTask
  | .test n r => [.test n r]
  | .suite n r ts => .suite n r ts :: getTasksList ts
/-- `getTasks` flattened over a list of sibling tasks. -/
def getTasksList : List RTask → List RTask
  | [] => []
  | t :: ts => getTasks t ++ getTasksList ts
end

/-- The `result` field of a runtime task. -/
def RTask.result : RTask → Option TResult
  | .test _ r => r
  | .suite _ r _ => r

mutual
/-- The effect of `getTasks(f).forEach((i) => delete i.result)` on one task:
`getTasks` enumerates every task object in the tree, so every nested task
loses its result. -/
def clearTask : RTask → RTask
  | .test n _ => .test n none
  | .suite n _ ts => .suite n none (clearTaskList ts)
/-- Result deletion over a list of sibling tasks. -/
def clearTaskList : List RTask → List RTask
  | [] => []
  | t :: ts => clearTask t :: clearTaskList ts
end

/-- `delete f.result` and the task-tree sweep applied to one file. -/
def clearFile (f : VFile) : VFile :=
  { f with result := none, tasks := clearTaskList f.tasks }

/-- The observable effect of one `TestWatcher.runFiles(files)` call: the
`run.started` reports (per file, the discovered item and all descendants),
the files as mutated before the rerun request, and the argument of
`client.rpc.rerun`. -/
structure RunFilesCall where
  started : List String
  files : List VFile
  rerunArg : List String
deriving Repr

/-- `TestWatcher.runFiles` (`src/watch.ts`): for each file, discover its
item (`discoverItem` stands for `discover.discoverTestFromPath`) and report
it and all its descendants started; then delete every result in every file;
then request a rerun of the file paths. -/
def runFiles (discoverItem : String → TestItem) (files : List VFile) :
    RunFilesCall :=
  { started := files.foldr
      (fun f acc => startedItems (discoverItem f.filepath) ++ acc) [],
    files := files.map clearFile,
    rerunArg := files.map VFile.filepath }

/-- `i` is `r` itself or an item nested anywhere below `r`. -/
inductive SubItem : TestItem → TestItem → Prop where
  | refl (i : TestItem) : SubItem i i
  | step (i c p : TestItem) : SubItem i c → c ∈ p.children → SubItem i p

/-! ## Static discovery (`discoverTestFromFileContent` in `src/discover.ts`).

The parser (`pure/parsers`) is an external collaborator: its outcome
(describe blocks and it blocks, or a parse error) is the `parseResult`
argument of the wrapper below.  The `ancestors` stack holds, per entry, the
opening block (`undefined` for the file entry) and the children gathered so
far; popping an entry finishes its item.  The single `TestItem` tree stands
for both the `vscode.TestItem` tree and the parallel
`TestDescribe`/`TestCase` data tree, whose children are assigned in the same
order from the same `dataChildren` arrays. -/

/-- `block.type` of a parsed `NamedBlock`. -/
inductive BlockType where
  | describe | it
deriving DecidableEq, Repr

/-- The fields of a parsed `NamedBlock` that `discoverTestFromFileContent`
reads: type, name, one-based start/end positions, and `lastProperty`
(`"each"` for `describe.each` / `it.each`). -/
structure NamedBlock where
  btype : BlockType
  name : String
  startLine : Nat
  startColumn : Nat
  endLine : Nat
  endColumn : Nat
  lastProperty : Option String
deriving DecidableEq, Repr

/-- One entry of the `ancestors` stack: the block that opened it (`none` for
the file entry), the created item's id and label, and the accumulated
children.  The stack is top-first (the file entry is last). -/
structure Frame where
  blk : Option NamedBlock
  id : String
  label : String
  children : List TestItem
deriving Repr

/-- Popping one stack entry (`ancestors.pop()` followed by
`top.item.children.replace(top.children)`): the popped entry's finished item
is attached below.  The JS code pushes the raw item into the parent's
children when the block is first seen and fills the item's children in place
on pop; attaching the finished item at pop time yields the same tree because
an entry is always popped before any later sibling is appended to its
parent. -/
def flushFrame (f g : Frame) : Frame :=
  match f.blk with
  | some b =>
    { g with children := g.children ++
        [TestItem.mk f.id f.label
          (some (b.startLine - 1, b.startColumn, b.endLine - 1, b.endColumn))
          f.children] }
  | none => g

/-- The `while` loop of `getParent`: keep popping while the top entry was
opened by a block (`parent.block`) whose end line is at or before the new
block's start line (`block.start!.line >= parent.block.end!.line`).  `f` is
the current top, `rest` the entries below it. -/
def gpsAux (blk : NamedBlock) : List Frame → Frame → List Frame
  | rest, f =>
    match f.blk with
    | none => f :: rest
    | some b =>
      if b.endLine ≤ blk.startLine then
        match rest with
        | [] => [f]
        | g :: rs => gpsAux blk rs (flushFrame f g)
      else f :: rest

/-- `getParent(block)` applied to the whole `ancestors` stack: the stack
after the popping loop (its head is the parent the new block attaches to). -/
def getParentStack (blk : NamedBlock) : List Frame → List Frame
  | [] => []
  | f :: rest => gpsAux blk rest f

/-- `ancestors.slice(1).map((x) => x.block?.name || '')`: the names of the
suite entries, outermost first (the stack is top-first, so drop the file
entry at the end and reverse). -/
def suiteNames (s : List Frame) : List String :=
  (s.dropLast.map (fun f => (f.blk.map NamedBlock.name).getD "")).reverse

/-- The `fullName` of a block: ancestor suite names and the block's own name
joined by spaces, trimmed. -/
def fullName (s : List Frame) (blk : NamedBlock) : String :=
  (String.intercalate " " (suiteNames s ++ [blk.name])).trim

/-- The template literal building a node id:
`` `${fileItem.uri}/${fullName}@${index++}` ``. -/
def mkId (uri fn : String) (i : Nat) : String :=
  uri ++ "/" ++ fn ++ "@" ++ toString i

/-- The loop state of `discoverTestFromFileContent`: the `ancestors` stack,
the running `index` counter, and the ids recorded so far (the
`idMap.set(id, caseItem)` calls, as `(fullName, index)` pairs — the id
string is `mkId uri fullName index`). -/
structure DiscoverState where
  stack : List Frame
  index : Nat
  trace : List (String × Nat)
deriving Repr

/-- The stack produced by one loop iteration: run `getParent`, then either
push a new entry (describe block) or append a leaf item to the parent's
children (it block). -/
def stepStack (uri : String) (s : List Frame) (i : Nat) (blk : NamedBlock) :
    List Frame :=
  let stack := getParentStack blk s
  let fn := fullName stack blk
  match blk.btype with
  | .describe =>
    { blk := some blk, id := mkId uri fn i, label := blk.name,
      children := [] } :: stack
  | .it =>
    match stack with
    | [] => []
    | p :: rest =>
      { p with children := p.children ++
          [TestItem.mk (mkId uri fn i) blk.name
            (some (blk.startLine - 1, blk.startColumn,
              blk.endLine - 1, blk.endColumn)) []] } :: rest

/-- One iteration of the `for (const block of arr)` loop: the new stack, the
incremented index, and the id recorded for the created item. -/
def stepBlock (uri : String) (st : DiscoverState) (blk : NamedBlock) :
    DiscoverState :=
  { stack := stepStack uri st.stack st.index blk,
    index := st.index + 1,
    trace := st.trace ++ [(fullName (getParentStack blk st.stack) blk, st.index)] }

/-- The whole block loop. -/
def runBlocks (uri : String) (st : DiscoverState) (arr : List NamedBlock) :
    DiscoverState :=
  arr.foldl (stepBlock uri) st

/-- The trailing `while (ancestors.length)` loop, continued: pop and attach
until only the file entry remains; its accumulated children become the file
item's children. -/
def flushAllAux : List Frame → Frame → List TestItem
  | [], f => f.children
  | g :: rs, f => flushAllAux rs (flushFrame f g)

/-- The trailing `while (ancestors.length)` loop. -/
def flushAll : List Frame → List TestItem
  | [] => []
  | f :: rest => flushAllAux rest f

/-- The initial `ancestors` entry for the file item (block `undefined`,
id = the file uri). -/
def initialFrame (uri : String) : Frame :=
  { blk := none, id := uri, label := uri, children := [] }

/-- The body of `discoverTestFromFileContent` after a successful parse,
applied to the range-ordered block list: the file item's new children and
the recorded `(fullName, index)` id pairs in creation order. -/
def discoverFromBlocks (uri : String) (arr : List NamedBlock) :
    List TestItem × List (String × Nat) :=
  let st := runBlocks uri ⟨[initialFrame uri], 0, []⟩ arr
  (flushAll st.stack, st.trace)

/-- `arr.sort((a, b) => (a.start?.line || 0) - (b.start?.line || 0))` over
`[...result.describeBlocks, ...result.itBlocks]` (stable, like the V8
sort). -/
def sortBlocks (ds its : List NamedBlock) : List NamedBlock :=
  (ds ++ its).mergeSort (fun a b => a.startLine ≤ b.startLine)

/-- `discoverTestFromFileContent`: on a parse error (`catch` around
`parse(fileItem.id, content)`) log and return, leaving the file item's
previous children untouched; otherwise rebuild the subtree from the sorted
block list. -/
def discoverTestFromFileContent (uri : String) (prevChildren : List TestItem)
    (parseResult : Except String (List NamedBlock × List NamedBlock)) :
    List TestItem × List (String × Nat) :=
  match parseResult with
  | .error _ => (prevChildren, [])
  | .ok (ds, its) => discoverFromBlocks uri (sortBlocks ds its)

/-- The popping condition of `getParent` on one stack entry's block: a file
entry (no block) is never popped; a suite entry is popped exactly when its
block's end line is at or before the incoming block's start line. -/
def popCond (blk : NamedBlock) (o : Option NamedBlock) : Bool :=
  match o with
  | none => false
  | some b => decide (b.endLine ≤ blk.startLine)

/-- A concrete it-block starting on line 5 (for the C9 witness). -/
def sampleBlockIt : NamedBlock := ⟨BlockType.it, "t", 5, 0, 5, 10, none⟩

/-- A concrete stack entry for a describe block spanning lines 2 to 4. -/
def sampleFrameInner : Frame :=
  ⟨some ⟨BlockType.describe, "inner", 2, 0, 4, 1, none⟩, "i", "inner", []⟩

/-- A concrete stack entry for a describe block spanning lines 1 to 9. -/
def sampleFrameOuter : Frame :=
  ⟨some ⟨BlockType.describe, "outer", 1, 0, 9, 1, none⟩, "o", "outer", []⟩

/-- A concrete file entry (no block). -/
def sampleFileFrame : Frame := ⟨none, "file", "file", []⟩

/-- The blocks of the stack entries, top first. -/
def stackBlocks (s : List Frame) : List (Option NamedBlock) :=
  s.map Frame.blk

/-- A concrete inserted block `c` on line 1 (for the C3 witness). -/
def blockC : NamedBlock := ⟨BlockType.it, "c", 1, 0, 1, 10, none⟩

/-- A concrete describe block `a` on lines 2 to 4. -/
def blockA : NamedBlock := ⟨BlockType.describe, "a", 2, 0, 4, 1, none⟩

/-- A concrete it block `b` on line 3 (inside `a`). -/
def blockB : NamedBlock := ⟨BlockType.it, "b", 3, 2, 3, 12, none⟩


/-! ## Theorems -/

/-! ## Helper lemmas about the exact phase of the matcher -/

theorem matchExact_cons_nohit {ty : RType} {name : String} {d : TData}
    (rest : List TData) (h : exactHit ty name d = false) :
    matchExact ty name (d :: rest) = matchExact ty name rest := by
  cases ty <;> cases d <;>
    simp_all [matchExact, exactHit, TData.isDescribe, TData.isCase, TData.pattern]

theorem matchExact_cons_hit {ty : RType} {name : String} {c : TData}
    (rest : List TData) (h : exactHit ty name c = true) :
    matchExact ty name (c :: rest) = some c := by
  cases ty <;> cases c <;>
    simp_all [matchExact, exactHit, TData.isDescribe, TData.isCase, TData.pattern]

theorem matchExact_none {ty : RType} {name : String} :
    ∀ {pool : List TData}, (∀ d ∈ pool, exactHit ty name d = false) →
      matchExact ty name pool = none := by
  intro pool
  induction pool with
  | nil => intro _; rfl
  | cons d rest ih =>
    intro h
    rw [matchExact_cons_nohit rest (h d (by simp))]
    exact ih (fun x hx => h x (by simp [hx]))

theorem matchExact_first {ty : RType} {name : String} :
    ∀ (l1 : List TData) (c : TData) (l2 : List TData),
      exactHit ty name c = true → (∀ d ∈ l1, exactHit ty name d = false) →
      matchExact ty name (l1 ++ c :: l2) = some c ∧
      removeFirstHit ty name (l1 ++ c :: l2) = l1 ++ l2 := by
  intro l1
  induction l1 with
  | nil =>
    intro c l2 hc _
    exact ⟨matchExact_cons_hit l2 hc, by simp [removeFirstHit, hc]⟩
  | cons d l1 ih =>
    intro c l2 hc hpre
    have hd : exactHit ty name d = false := hpre d (by simp)
    have hrest := ih c l2 hc (fun x hx => hpre x (by simp [hx]))
    refine ⟨?_, ?_⟩
    · rw [List.cons_append, matchExact_cons_nohit _ hd]
      exact hrest.1
    · simp [removeFirstHit, hd, hrest.2]

/-- C1: `matchTask` prefers exact same-kind matches: if the pool decomposes as
a prefix of non-hits followed by an exact same-kind hit `c`, then `c` (the
first such candidate in iteration order) is returned and deleted from the
pool, no matter what the fuzzy search would have ranked higher; only when no
exact same-kind candidate exists at all does the (abstracted) Fuse search run,
and its top result is returned with the pool left completely unchanged — so
later runtime tasks (e.g. `test.each` instances) can match the same node. -/
theorem matchTask_exact_first_else_fuzzy_nonconsuming
    (fuse : List TData → String → Option TData) (ty : RType) (name : String)
    (pool : List TData) :
    (∀ (l1 : List TData) (c : TData) (l2 : List TData), pool = l1 ++ c :: l2 →
      exactHit ty name c = true → (∀ d ∈ l1, exactHit ty name d = false) →
      matchTask fuse ty name pool = (some c, l1 ++ l2)) ∧
    ((∀ d ∈ pool, exactHit ty name d = false) →
      matchTask fuse ty name pool = (fuse pool name, pool)) := by
  constructor
  · intro l1 c l2 hpool hc hpre
    subst hpool
    have h := matchExact_first l1 c l2 hc hpre
    simp [matchTask, h.1, h.2]
  · intro hall
    simp [matchTask, matchExact_none hall]

/-- Witness for C1 at a concrete pool: a same-named `TestDescribe` is skipped
by the kind check and the exact `TestCase` hit is taken and removed; for a
pool with no case candidate, the fuzzy result is returned and nothing is
removed. -/
theorem matchTask_exact_first_else_fuzzy_nonconsuming_witness :
    matchTask (fun _ _ => none) RType.test "x"
      [TData.describe "x" [], TData.testCase "x"] =
      (some (TData.testCase "x"), [TData.describe "x" []]) ∧
    matchTask (fun pool _ => pool.head?) RType.test "x"
      [TData.describe "x" []] =
      (some (TData.describe "x" []), [TData.describe "x" []]) := by
  constructor
  · exact (matchTask_exact_first_else_fuzzy_nonconsuming _ RType.test "x" _).1
      [TData.describe "x" []] (TData.testCase "x") [] rfl (by decide)
      (by intro d hd; simp at hd; subst hd; decide)
  · exact (matchTask_exact_first_else_fuzzy_nonconsuming _ RType.test "x" _).2
      (by intro d hd; simp at hd; subst hd; decide)

/-- C2: for a runtime test task that the matcher resolves to node `d`, the
event applied by `sync` is a function of the task's result: `pass` reports
passed (with the duration), `fail` reports failed with the runtime error
message (empty string when absent), `skip` and `todo` report skipped, `run`
reports started, `only` causes no transition, an absent result on a finished
run reports skipped, and an absent result while the run is in progress causes
no transition. -/
theorem sync_test_result_transitions
    (fuse : List TData → String → Option TData) (finished : Bool)
    (pool : List TData) (name : String) (result : Option TResult)
    (ts : List RTask) (d : TData) (pool2 : List TData)
    (h : matchTask fuse RType.test name pool = (some d, pool2)) :
    sync fuse finished pool (RTask.test name result :: ts) =
      match result with
      | none =>
        if finished then
          (sync fuse finished pool2 ts).map (SyncEvent.skipped d :: ·)
        else sync fuse finished pool2 ts
      | some r =>
        match r.state with
        | .pass =>
          (sync fuse finished pool2 ts).map (SyncEvent.passed d r.duration :: ·)
        | .fail =>
          (sync fuse finished pool2 ts).map
            (SyncEvent.failed d (r.errorMessage.getD "") :: ·)
        | .skip => (sync fuse finished pool2 ts).map (SyncEvent.skipped d :: ·)
        | .todo => (sync fuse finished pool2 ts).map (SyncEvent.skipped d :: ·)
        | .run => (sync fuse finished pool2 ts).map (SyncEvent.started d :: ·)
        | .only => sync fuse finished pool2 ts := by
  rcases result with _ | r
  · simp only [sync, h]
  · rcases r with ⟨state, duration, errorMessage⟩
    cases state <;> simp only [sync, h]

/-- Witness for C2: a failing test task with no error message reports failed
with the empty string on its exactly matched node. -/
theorem sync_test_result_transitions_witness :
    sync (fun _ _ => none) true [TData.testCase "a"]
      [RTask.test "a" (some ⟨RState.fail, none, none⟩)] =
      (sync (fun _ _ => none) true [] []).map
        (SyncEvent.failed (TData.testCase "a") "" :: ·) :=
  sync_test_result_transitions (fun _ _ => none) true [TData.testCase "a"]
    "a" (some ⟨RState.fail, none, none⟩) [] (TData.testCase "a") [] rfl

/-- C7 counterexample: a runtime task with no matching candidate does NOT
make the pass skip it silently and continue.  Concretely, with the static
pool `[case "b"]` and a first runtime task named `"zzz"` (no exact hit; the
Fuse search finds nothing for such a dissimilar name, modelled by the
`fun _ _ => none` instance), `sync` dereferences the missing match and raises
(models the JavaScript `TypeError` on `data.item`), so the second task —
which has an exact match — is never propagated. -/
theorem sync_unmatched_raises_counterexample :
    sync (fun _ _ => none) true [TData.testCase "b"]
      [RTask.test "zzz" (some ⟨RState.pass, none, none⟩),
       RTask.test "b" (some ⟨RState.pass, some 1, none⟩)] = Except.error () := by
  simp [sync, matchTask, matchExact, removeFirstHit, exactHit,
    TData.isCase, TData.isDescribe, TData.pattern, Except.map]


/-- C7 (amended): when the matcher returns no candidate (no exact same-kind
hit and an empty-handed fuzzy search), the synchronizer raises (a `TypeError`
on the absent match, caught only by the event handler wrapper) as soon as the
task's branch touches the match — every suite task, and every test task whose
result state is pass/fail/skip/todo/run or absent-on-a-finished-run.  Only
tasks whose branch never touches the match (result `only`, or an absent
result while the run is in progress) are skipped silently with the pass
continuing. -/
theorem sync_unmatched_amended
    (fuse : List TData → String → Option TData) (finished : Bool)
    (pool : List TData) (name : String) (ts : List RTask) :
    (∀ result : Option TResult,
      matchTask fuse RType.test name pool = (none, pool) →
      sync fuse finished pool (RTask.test name result :: ts) =
        if touchesMatch finished result then Except.error ()
        else sync fuse finished pool ts) ∧
    (∀ (res : Option TResult) (tasks : List RTask),
      matchTask fuse RType.suite name pool = (none, pool) →
      sync fuse finished pool (RTask.suite name res tasks :: ts) =
        Except.error ()) := by
  constructor
  · intro result h
    rcases result with _ | r
    · cases finished <;> simp [sync, h, touchesMatch]
    · rcases r with ⟨state, duration, errorMessage⟩
      cases state <;> simp [sync, h, touchesMatch]
  · intro res tasks h
    simp only [sync, h]

/-- Witness for C7 (amended): with an empty pool the matcher finds nothing,
and a passing test task makes the pass error out. -/
theorem sync_unmatched_amended_witness :
    sync (fun _ _ => none) true []
      [RTask.test "a" (some ⟨RState.pass, none, none⟩)] = Except.error () := by
  have h := (sync_unmatched_amended (fun _ _ => none) true [] "a" []).1
    (some ⟨RState.pass, none, none⟩) rfl
  simpa [touchesMatch] using h

namespace StateManager

theorem lookup_setResult_self {id : String} {t : STask} (r : Option TResult) :
    ∀ {idMap : List (String × STask)}, mapLookup id idMap = some t →
      mapLookup id (setResult id r idMap) = some { t with result := r } := by
  intro idMap
  induction idMap with
  | nil => intro h; simp [mapLookup] at h
  | cons e m ih =>
    intro h
    by_cases he : e.1 = id
    · simp [mapLookup, setResult, he] at h ⊢
      simp [h]
    · simp [mapLookup, setResult, he] at h ⊢
      exact ih h

theorem lookup_setResult_other {id k : String} (r : Option TResult)
    (hk : k ≠ id) :
    ∀ idMap : List (String × STask),
      mapLookup k (setResult id r idMap) = mapLookup k idMap := by
  have hik : id ≠ k := fun hc => hk hc.symm
  intro idMap
  induction idMap with
  | nil => simp [setResult]
  | cons e m ih =>
    by_cases he : e.1 = id
    · simp [mapLookup, setResult, he, hik]
      exact ih
    · by_cases hke : e.1 = k
      · simp [mapLookup, setResult, he, hke, hk]
      · simp [mapLookup, setResult, he, hke]
        exact ih

/-- C6: one step of a task-update batch.  When the pack's id is unknown the
pack is dropped and the state passed to the rest of the batch is unchanged;
when the id is known, exactly the `result` field of that entry is replaced
(every other field of the task is kept by `{ t with result := r }`) and the
lookup of every other id is untouched. -/
theorem updateTasks_pointwise (idMap : List (String × STask)) (id : String)
    (r : Option TResult) (rest : List (String × Option TResult)) :
    (mapLookup id idMap = none →
      updateTasks idMap ((id, r) :: rest) = updateTasks idMap rest) ∧
    (∀ t : STask, mapLookup id idMap = some t →
      updateTasks idMap ((id, r) :: rest) = updateTasks (setResult id r idMap) rest ∧
      mapLookup id (setResult id r idMap) = some { t with result := r } ∧
      ∀ k, k ≠ id → mapLookup k (setResult id r idMap) = mapLookup k idMap) := by
  constructor
  · intro h
    simp [updateTasks, h]
  · intro t h
    refine ⟨by simp [updateTasks, h], lookup_setResult_self r h, ?_⟩
    intro k hk
    exact lookup_setResult_other r hk idMap

/-- Witness for C6 at a concrete state: a known id gets exactly its result
replaced and the other entry is untouched; an unknown id leaves the whole
state unchanged. -/
theorem updateTasks_pointwise_witness :
    (updateTasks [("1", ⟨RType.test, "a", none, []⟩)] [("9", some ⟨RState.pass, none, none⟩)] =
      updateTasks [("1", ⟨RType.test, "a", none, []⟩)] []) ∧
    (updateTasks [("1", ⟨RType.test, "a", none, []⟩), ("2", ⟨RType.test, "b", none, []⟩)]
        [("1", some ⟨RState.pass, none, none⟩)] =
      updateTasks
        (setResult "1" (some ⟨RState.pass, none, none⟩)
          [("1", ⟨RType.test, "a", none, []⟩), ("2", ⟨RType.test, "b", none, []⟩)]) [] ∧
      mapLookup "1" (setResult "1" (some ⟨RState.pass, none, none⟩)
          [("1", ⟨RType.test, "a", none, []⟩), ("2", ⟨RType.test, "b", none, []⟩)]) =
        some ⟨RType.test, "a", some ⟨RState.pass, none, none⟩, []⟩ ∧
      mapLookup "2" (setResult "1" (some ⟨RState.pass, none, none⟩)
          [("1", ⟨RType.test, "a", none, []⟩), ("2", ⟨RType.test, "b", none, []⟩)]) =
        mapLookup "2"
          [("1", (⟨RType.test, "a", none, []⟩ : STask)),
           ("2", ⟨RType.test, "b", none, []⟩)]) := by
  refine ⟨(updateTasks_pointwise _ "9" _ []).1 (by decide), ?_⟩
  have h := (updateTasks_pointwise
    [("1", (⟨RType.test, "a", none, []⟩ : STask)), ("2", ⟨RType.test, "b", none, []⟩)]
    "1" (some ⟨RState.pass, none, none⟩) []).2 ⟨RType.test, "a", none, []⟩ (by decide)
  exact ⟨h.1, h.2.1, h.2.2 "2" (by decide)⟩

end StateManager

/-- C8 counterexample: with continuous mode on and the non-empty watch list
`["/w/watched.test.ts"]`, a change to the unwatched test file
`/w/other.test.ts` (so the trigger is itself in the changed-tests set)
re-runs that file even though the intersection of the changed-tests set with
the watched set is empty — the re-run set is not the claimed intersection. -/
theorem scheduleRerun_intersection_counterexample :
    (scheduleRerun ⟨true, false, ["/w/watched.test.ts"], none⟩ false
        ["/w/other.test.ts"] [] ["/w/other.test.ts"]).changedTests =
      ["/w/other.test.ts"] ∧
    List.filter (fun f => isTestFileWatched ["/w/watched.test.ts"] f)
      ["/w/other.test.ts"] = [] := by
  constructor
  · decide
  · decide

/-- C8 (amended): with continuous mode on and a non-empty explicit watch
list, the re-run set is the intersection of the changed-tests set with the
watched set only when the triggering file is not itself a changed test file;
when the trigger is a changed test file, the whole changed-tests set is
re-run unfiltered.  A file matches the watched set exactly when it equals a
watched entry, or a watched entry ends in a path separator and the file's
path starts with that entry. -/
theorem scheduleRerun_watchlist_amended (st : WatcherState) (rt : Bool)
    (changed invalidates rest : List String) (trigger : String)
    (he : st.enabled = true) (hw : st.watchEveryFile = false)
    (hf : st.files ≠ []) :
    (scheduleRerun st rt changed invalidates (trigger :: rest)).changedTests =
      (if changed.contains trigger then changed
       else changed.filter (fun f => isTestFileWatched st.files f)) ∧
    ∀ f, isTestFileWatched st.files f = true ↔
      ∃ e ∈ st.files,
        e = f ∨ (lastCharIsSlash e = true ∧ strStartsWith f e = true) := by
  constructor
  · simp only [scheduleRerun, he, hw]
    by_cases hm : trigger ∈ changed
    · have hc : changed.contains trigger = true := by simpa using hm
      simp [hc, hm]
    · have hc : changed.contains trigger = false := by simpa using hm
      simp [hc, hm]
  · intro f
    have hne : st.files.isEmpty = false := by
      cases hfs : st.files with
      | nil => exact absurd hfs hf
      | cons a l => simp
    simp only [isTestFileWatched, hne, Bool.false_eq_true, if_false,
      List.any_eq_true]
    constructor
    · rintro ⟨e, hm, hp⟩
      refine ⟨e, hm, ?_⟩
      by_cases h1 : e == f
      · exact Or.inl (by simpa using h1)
      · simp only [h1, if_false] at hp
        by_cases h2 : lastCharIsSlash e
        · simp only [h2, if_true] at hp
          exact Or.inr ⟨h2, hp⟩
        · simp [h2] at hp
    · rintro ⟨e, hm, hp | ⟨h2, h3⟩⟩
      · exact ⟨e, hm, by simp [hp]⟩
      · refine ⟨e, hm, ?_⟩
        by_cases h1 : e == f
        · simp [h1]
        · simp [h1, h2, h3]

/-- Witness for C8 (amended) at a concrete state: a source-file trigger
scopes the re-run to the watched directory, and the matching predicate is
exactly equality-or-directory-prefix. -/
theorem scheduleRerun_watchlist_amended_witness :
    ((scheduleRerun ⟨true, false, ["/w/"], none⟩ false
        ["/w/a.test.ts", "/x/b.test.ts"] [] ["/src/util.ts"]).changedTests =
      (if ["/w/a.test.ts", "/x/b.test.ts"].contains "/src/util.ts" then
        ["/w/a.test.ts", "/x/b.test.ts"]
       else
        ["/w/a.test.ts", "/x/b.test.ts"].filter
          (fun f => isTestFileWatched ["/w/"] f))) ∧
    (isTestFileWatched ["/w/"] "/w/a.test.ts" = true ↔
      ∃ e ∈ ["/w/"], e = "/w/a.test.ts" ∨
        (lastCharIsSlash e = true ∧ strStartsWith "/w/a.test.ts" e = true)) := by
  have h := scheduleRerun_watchlist_amended ⟨true, false, ["/w/"], none⟩ false
    ["/w/a.test.ts", "/x/b.test.ts"] [] [] "/src/util.ts" rfl rfl (by simp)
  exact ⟨h.1, h.2 "/w/a.test.ts"⟩


theorem mem_startedItemsList_of_mem {x : String} {c : TestItem} :
    ∀ cs : List TestItem, c ∈ cs → x ∈ startedItems c →
      x ∈ startedItemsList cs := by
  intro cs
  induction cs with
  | nil => intro h; simp at h
  | cons y ys ih =>
    intro hm hx
    rw [startedItemsList]
    rcases List.mem_cons.mp hm with h | h
    · subst h; exact List.mem_append_left _ hx
    · exact List.mem_append_right _ (ih h hx)

theorem subItem_id_mem_startedItems {i r : TestItem} (h : SubItem i r) :
    i.id ∈ startedItems r := by
  induction h with
  | refl =>
    cases i
    rename_i jid jl jr cs
    simp [startedItems, TestItem.id]
  | step =>
    rename_i c p hsub hmem ih
    cases p
    rename_i pid pl pr cs
    rw [startedItems]
    refine List.mem_cons_of_mem _ ?_
    exact mem_startedItemsList_of_mem cs (by simpa [TestItem.children] using hmem) ih

theorem cleared_results_aux :
    ∀ n : Nat,
      (∀ t : RTask, sizeOf t ≤ n →
        ∀ u ∈ getTasks (clearTask t), u.result = none) ∧
      (∀ ts : List RTask, sizeOf ts ≤ n →
        ∀ u ∈ getTasksList (clearTaskList ts), u.result = none) := by
  intro n
  induction n with
  | zero =>
    constructor
    · intro t ht
      exfalso
      cases t <;> simp at ht
    · intro ts hts
      exfalso
      cases ts <;> simp at hts
  | succ n ih =>
    constructor
    · intro t ht u hu
      cases t with
      | test nm r =>
        simp only [clearTask, getTasks, List.mem_singleton] at hu
        simp [hu, RTask.result]
      | suite nm r ts =>
        simp only [clearTask, getTasks] at hu
        rcases List.mem_cons.mp hu with h | h
        · simp [h, RTask.result]
        · refine ih.2 ts ?_ u h
          simp only [RTask.suite.sizeOf_spec] at ht
          omega
    · intro ts hts u hu
      cases ts with
      | nil => simp [clearTaskList, getTasksList] at hu
      | cons t ts =>
        simp only [clearTaskList, getTasksList] at hu
        rcases List.mem_append.mp hu with h | h
        · refine ih.1 t ?_ u h
          simp only [List.cons.sizeOf_spec] at hts
          omega
        · refine ih.2 ts ?_ u h
          simp only [List.cons.sizeOf_spec] at hts
          omega

/-- C10: `TestWatcher.runFiles(files)` reports the discovered item of every
listed file and every descendant item as started, deletes the `result` of
every listed file and of every task in each file's subtree before the rerun
request is issued, and asks the runtime to re-run exactly the listed file
paths — so no result from a previous run survives for the re-executed files. -/
theorem runFiles_starts_all_and_clears_results
    (discoverItem : String → TestItem) (files : List VFile) :
    (∀ f ∈ files, ∀ i : TestItem, SubItem i (discoverItem f.filepath) →
      i.id ∈ (runFiles discoverItem files).started) ∧
    (∀ g ∈ (runFiles discoverItem files).files,
      g.result = none ∧ ∀ u ∈ getTasksList g.tasks, u.result = none) ∧
    (runFiles discoverItem files).rerunArg = files.map VFile.filepath := by
  refine ⟨?_, ?_, rfl⟩
  · intro f hf i hsub
    have hx := subItem_id_mem_startedItems hsub
    simp only [runFiles]
    clear hsub
    induction files with
    | nil => simp at hf
    | cons g gs ih =>
      rcases List.mem_cons.mp hf with h | h
      · subst h
        exact List.mem_append_left _ hx
      · exact List.mem_append_right _ (ih h)
  · intro g hg
    simp only [runFiles, List.mem_map] at hg
    rcases hg with ⟨f, _, hfg⟩
    subst hfg
    refine ⟨rfl, ?_⟩
    intro u hu
    exact (cleared_results_aux (sizeOf f.tasks)).2 f.tasks le_rfl u hu

/-- Witness for C10: a nested child item of the single listed file is
reported started, and the file's nested failing task has its result
deleted. -/
theorem runFiles_starts_all_and_clears_results_witness :
    "c1" ∈ (runFiles
      (fun _ => TestItem.mk "root" "r" none [TestItem.mk "c1" "c" none []])
      [⟨"/a.test.ts", some ⟨RState.fail, none, none⟩,
        [RTask.test "t" (some ⟨RState.fail, none, none⟩)]⟩]).started := by
  have h := (runFiles_starts_all_and_clears_results
    (fun _ => TestItem.mk "root" "r" none [TestItem.mk "c1" "c" none []])
    [⟨"/a.test.ts", some ⟨RState.fail, none, none⟩,
      [RTask.test "t" (some ⟨RState.fail, none, none⟩)]⟩]).1
    ⟨"/a.test.ts", some ⟨RState.fail, none, none⟩,
      [RTask.test "t" (some ⟨RState.fail, none, none⟩)]⟩ (by simp)
    (TestItem.mk "c1" "c" none [])
    (SubItem.step _ _ _ (SubItem.refl _) (by simp [TestItem.children]))
  simpa [TestItem.id] using h


/-- C5: when the parser fails, `discoverTestFromFileContent` returns before
touching the tree: the file keeps its previous children (no node removed or
changed) and no id is assigned. -/
theorem discover_parse_error_keeps_subtree (uri : String)
    (prev : List TestItem) (e : String) :
    discoverTestFromFileContent uri prev (Except.error e) = (prev, []) := rfl

/-- C4: re-applying the same parse outcome (the same ordered block list) to
the same file is idempotent: the second application returns exactly the same
children (same ids, same child order at every node) and records exactly the
same ids, whatever the file's children were before the first application —
the `index` counters are local to one call, so re-parsing without source
changes reassigns no id. -/
theorem discover_reapply_same_blocks (uri : String) (prev : List TestItem)
    (ds its : List NamedBlock) :
    discoverTestFromFileContent uri
        (discoverTestFromFileContent uri prev (Except.ok (ds, its))).1
        (Except.ok (ds, its)) =
      discoverTestFromFileContent uri prev (Except.ok (ds, its)) := rfl


theorem flushFrame_blk (f g : Frame) : (flushFrame f g).blk = g.blk := by
  cases h : f.blk <;> simp [flushFrame, h]

theorem gpsAux_dropWhile (blk : NamedBlock) :
    ∀ (rest : List Frame) (f l : Frame),
      (f :: rest).getLast? = some l → l.blk = none →
      (gpsAux blk rest f).map Frame.blk =
        ((f :: rest).map Frame.blk).dropWhile (popCond blk) := by
  intro rest
  induction rest with
  | nil =>
    intro f l hl hnone
    simp only [List.getLast?_singleton, Option.some_inj] at hl
    subst hl
    simp [gpsAux, hnone, popCond, List.dropWhile]
  | cons g rs ih =>
    intro f l hl hnone
    rw [List.getLast?_cons_cons] at hl
    cases hfb : f.blk with
    | none =>
      simp [gpsAux, hfb, popCond, List.dropWhile]
    | some b =>
      by_cases hc : b.endLine ≤ blk.startLine
      · have hstep : gpsAux blk (g :: rs) f = gpsAux blk rs (flushFrame f g) := by
          rw [gpsAux, hfb]
          simp [hc]
        rw [hstep]
        have hlast : (flushFrame f g :: rs).getLast? = some l ∨
            ((flushFrame f g :: rs).getLast? = some (flushFrame f g) ∧
              (flushFrame f g).blk = none) := by
          cases rs with
          | nil =>
            right
            refine ⟨by simp, ?_⟩
            rw [flushFrame_blk]
            simp only [List.getLast?_singleton, Option.some_inj] at hl
            rw [hl]
            exact hnone
          | cons r rs' =>
            left
            rw [List.getLast?_cons_cons]
            rw [List.getLast?_cons_cons] at hl
            exact hl
        have hmain : (gpsAux blk rs (flushFrame f g)).map Frame.blk =
            ((flushFrame f g :: rs).map Frame.blk).dropWhile (popCond blk) := by
          rcases hlast with h | ⟨h, hb⟩
          · exact ih (flushFrame f g) l h hnone
          · exact ih (flushFrame f g) (flushFrame f g) h hb
        rw [hmain]
        have hp : popCond blk (some b) = true := by simp [popCond, hc]
        simp [List.dropWhile_cons, flushFrame_blk, hfb, hp]
      · have hstep : gpsAux blk (g :: rs) f = f :: g :: rs := by
          rw [gpsAux, hfb]
          simp [hc]
        rw [hstep]
        have : popCond blk (some b) = false := by simp [popCond, hc]
        simp [List.dropWhile, hfb, this]

/-- C9: the popping loop of `getParent` pops the top-of-stack suite exactly
while the incoming block's start position is at or past the top's end
position (the source compares the one-based line coordinates): over any
stack whose bottom entry is the file entry, the surviving stack is the
longest suffix after dropping exactly the entries whose block ends at or
before the new block's start — so parent/child nesting is decided by range
containment of the blocks, not by call nesting in the source text. -/
theorem getParent_pops_on_range_end (blk : NamedBlock) (init : List Frame)
    (fb : Frame) (hfb : fb.blk = none) :
    (getParentStack blk (init ++ [fb])).map Frame.blk =
      ((init ++ [fb]).map Frame.blk).dropWhile (popCond blk) := by
  cases init with
  | nil =>
    simp [getParentStack, gpsAux, hfb, popCond, List.dropWhile]
  | cons f init' =>
    have : (f :: (init' ++ [fb])).getLast? = some fb := by
      rw [show f :: (init' ++ [fb]) = (f :: init') ++ [fb] by simp]
      exact List.getLast?_concat _
    exact gpsAux_dropWhile blk (init' ++ [fb]) f fb this hfb


/-! ### Stability of ids under insertion (C3).

What later blocks are named and where they attach depends only on the
blocks of the stack entries, not on the ids, labels or gathered children;
the running index only shifts.  The lemmas below make this precise. -/


theorem suiteNames_congr {s1 s2 : List Frame}
    (h : stackBlocks s1 = stackBlocks s2) : suiteNames s1 = suiteNames s2 := by
  have key : ∀ s : List Frame,
      s.dropLast.map (fun f => (f.blk.map NamedBlock.name).getD "") =
        (stackBlocks s).dropLast.map
          (fun o => (o.map NamedBlock.name).getD "") := by
    intro s
    rw [stackBlocks, ← List.map_dropLast, List.map_map]
    rfl
  rw [suiteNames, suiteNames, key, key, h]

theorem fullName_congr {s1 s2 : List Frame}
    (h : stackBlocks s1 = stackBlocks s2) (blk : NamedBlock) :
    fullName s1 blk = fullName s2 blk := by
  rw [fullName, fullName, suiteNames_congr h]

theorem gpsAux_congr (blk : NamedBlock) :
    ∀ (r1 r2 : List Frame) (f1 f2 : Frame),
      f1.blk = f2.blk → stackBlocks r1 = stackBlocks r2 →
      stackBlocks (gpsAux blk r1 f1) = stackBlocks (gpsAux blk r2 f2) := by
  intro r1
  induction r1 with
  | nil =>
    intro r2 f1 f2 hf hr
    have hr2 : r2 = [] := by
      cases r2 with
      | nil => rfl
      | cons x xs => simp [stackBlocks] at hr
    subst hr2
    rw [gpsAux, gpsAux, ← hf]
    cases hfb : f1.blk with
    | none => simp [stackBlocks, hf]
    | some b =>
      by_cases hc : b.endLine ≤ blk.startLine <;>
        simp [hc, stackBlocks, hf]
  | cons g1 rs1 ih =>
    intro r2 f1 f2 hf hr
    cases r2 with
    | nil => simp [stackBlocks] at hr
    | cons g2 rs2 =>
      simp only [stackBlocks, List.map_cons, List.cons.injEq] at hr
      rw [gpsAux, gpsAux, ← hf]
      cases hfb : f1.blk with
      | none => simp [stackBlocks, hf, hr.1, hr.2]
      | some b =>
        by_cases hc : b.endLine ≤ blk.startLine
        · simp only [hc, if_true]
          refine ih rs2 (flushFrame f1 g1) (flushFrame f2 g2) ?_ hr.2
          rw [flushFrame_blk, flushFrame_blk, hr.1]
        · simp [hc, stackBlocks, hf, hr.1, hr.2]

theorem getParentStack_congr (blk : NamedBlock) {s1 s2 : List Frame}
    (h : stackBlocks s1 = stackBlocks s2) :
    stackBlocks (getParentStack blk s1) = stackBlocks (getParentStack blk s2) := by
  cases s1 with
  | nil =>
    cases s2 with
    | nil => rfl
    | cons f2 r2 => simp [stackBlocks] at h
  | cons f1 r1 =>
    cases s2 with
    | nil => simp [stackBlocks] at h
    | cons f2 r2 =>
      simp only [stackBlocks, List.map_cons, List.cons.injEq] at h
      exact gpsAux_congr blk r1 r2 f1 f2 h.1 h.2

theorem stepStack_congr_of_gps (uri : String) {s1 s2 : List Frame}
    (i1 i2 : Nat) (blk : NamedBlock)
    (hg : stackBlocks (getParentStack blk s1) =
      stackBlocks (getParentStack blk s2)) :
    stackBlocks (stepStack uri s1 i1 blk) = stackBlocks (stepStack uri s2 i2 blk) := by
  simp only [stepStack]
  cases hb : blk.btype with
  | describe =>
    simp only [stackBlocks] at hg ⊢
    simp [hg]
  | it =>
    cases h1 : getParentStack blk s1 with
    | nil =>
      cases h2 : getParentStack blk s2 with
      | nil => simp [stackBlocks]
      | cons p2 r2 => rw [h1, h2] at hg; simp [stackBlocks] at hg
    | cons p1 r1 =>
      cases h2 : getParentStack blk s2 with
      | nil => rw [h1, h2] at hg; simp [stackBlocks] at hg
      | cons p2 r2 =>
        rw [h1, h2] at hg
        simp only [stackBlocks, List.map_cons, List.cons.injEq] at hg
        simp [stackBlocks, hg.1, hg.2]

theorem runBlocks_trace_accum (uri : String) :
    ∀ (arr : List NamedBlock) (s : List Frame) (i : Nat)
      (tr : List (String × Nat)),
      runBlocks uri ⟨s, i, tr⟩ arr =
        ⟨(runBlocks uri ⟨s, i, []⟩ arr).stack,
         (runBlocks uri ⟨s, i, []⟩ arr).index,
         tr ++ (runBlocks uri ⟨s, i, []⟩ arr).trace⟩ := by
  intro arr
  induction arr with
  | nil => intro s i tr; simp [runBlocks]
  | cons b arr ih =>
    intro s i tr
    have e1 : runBlocks uri ⟨s, i, tr⟩ (b :: arr) =
        runBlocks uri ⟨stepStack uri s i b, i + 1,
          tr ++ [(fullName (getParentStack b s) b, i)]⟩ arr := rfl
    have e2 : runBlocks uri ⟨s, i, []⟩ (b :: arr) =
        runBlocks uri ⟨stepStack uri s i b, i + 1,
          [(fullName (getParentStack b s) b, i)]⟩ arr := rfl
    rw [e1, e2]
    rw [ih (stepStack uri s i b) (i + 1)
      (tr ++ [(fullName (getParentStack b s) b, i)])]
    rw [ih (stepStack uri s i b) (i + 1)
      [(fullName (getParentStack b s) b, i)]]
    simp

theorem runBlocks_congr_shift (uri : String) :
    ∀ (arr : List NamedBlock) (s1 s2 : List Frame) (i k : Nat),
      stackBlocks s1 = stackBlocks s2 →
      stackBlocks (runBlocks uri ⟨s1, i + k, []⟩ arr).stack =
        stackBlocks (runBlocks uri ⟨s2, i, []⟩ arr).stack ∧
      (runBlocks uri ⟨s1, i + k, []⟩ arr).index =
        (runBlocks uri ⟨s2, i, []⟩ arr).index + k ∧
      (runBlocks uri ⟨s1, i + k, []⟩ arr).trace =
        ((runBlocks uri ⟨s2, i, []⟩ arr).trace).map (fun p => (p.1, p.2 + k)) := by
  intro arr
  induction arr with
  | nil =>
    intro s1 s2 i k h
    exact ⟨h, rfl, rfl⟩
  | cons b arr ih =>
    intro s1 s2 i k h
    have hg := getParentStack_congr b h
    have hfn := fullName_congr hg b
    have hs := stepStack_congr_of_gps uri (i + k) i b hg
    have e1 : runBlocks uri ⟨s1, i + k, []⟩ (b :: arr) =
        runBlocks uri ⟨stepStack uri s1 (i + k) b, i + k + 1,
          [(fullName (getParentStack b s1) b, i + k)]⟩ arr := rfl
    have e2 : runBlocks uri ⟨s2, i, []⟩ (b :: arr) =
        runBlocks uri ⟨stepStack uri s2 i b, i + 1,
          [(fullName (getParentStack b s2) b, i)]⟩ arr := rfl
    rw [e1, e2]
    rw [runBlocks_trace_accum uri arr (stepStack uri s1 (i + k) b) (i + k + 1)
      [(fullName (getParentStack b s1) b, i + k)]]
    rw [runBlocks_trace_accum uri arr (stepStack uri s2 i b) (i + 1)
      [(fullName (getParentStack b s2) b, i)]]
    have hidx : i + k + 1 = (i + 1) + k := by omega
    rw [hidx]
    obtain ⟨c1, c2, c3⟩ :=
      ih (stepStack uri s1 (i + k) b) (stepStack uri s2 i b) (i + 1) k hs
    refine ⟨c1, c2, ?_⟩
    simp only [List.map_append, List.map_cons, List.map_nil]
    rw [hfn, c3]

/-- C3: inserting a new block `C` entirely before `A` (in the ordered block
list `[A, B]`, giving `[C, A, B]`) re-derives every unchanged block's id with
the same full name and a positional index shifted by one: the recorded id
pairs become `(C, 0)` followed by the old pairs with their `@` index
incremented — the numeric suffix of `fileURI + '/' + fullName + '@' + index`
follows the block's position in the ordered sequence, never its name. -/
theorem insertion_shifts_indices (uri : String) (C A B : NamedBlock)
    (h1 : C.endLine ≤ A.startLine) (_hord : A.startLine ≤ B.startLine) :
    (discoverFromBlocks uri [C, A, B]).2 =
      (C.name.trim, 0) ::
        ((discoverFromBlocks uri [A, B]).2.map (fun p => (p.1, p.2 + 1))) := by
  have hfnC : fullName (getParentStack C [initialFrame uri]) C = C.name.trim := by
    simp [getParentStack, gpsAux, initialFrame, fullName, suiteNames,
      String.intercalate, String.intercalate.go]
  have hg : stackBlocks (getParentStack A (stepStack uri [initialFrame uri] 0 C)) =
      stackBlocks (getParentStack A [initialFrame uri]) := by
    cases hCt : C.btype <;>
      simp [stepStack, getParentStack, gpsAux, initialFrame, flushFrame,
        stackBlocks, hCt, h1]
  have hfnA := fullName_congr hg A
  have hsA := stepStack_congr_of_gps uri 1 0 A hg
  have e1 : discoverFromBlocks uri [C, A, B] =
      (flushAll (runBlocks uri ⟨stepStack uri (stepStack uri [initialFrame uri] 0 C) 1 A, 2,
          [(fullName (getParentStack C [initialFrame uri]) C, 0),
           (fullName (getParentStack A (stepStack uri [initialFrame uri] 0 C)) A, 1)]⟩
          [B]).stack,
       (runBlocks uri ⟨stepStack uri (stepStack uri [initialFrame uri] 0 C) 1 A, 2,
          [(fullName (getParentStack C [initialFrame uri]) C, 0),
           (fullName (getParentStack A (stepStack uri [initialFrame uri] 0 C)) A, 1)]⟩
          [B]).trace) := rfl
  have e2 : discoverFromBlocks uri [A, B] =
      (flushAll (runBlocks uri ⟨stepStack uri [initialFrame uri] 0 A, 1,
          [(fullName (getParentStack A [initialFrame uri]) A, 0)]⟩ [B]).stack,
       (runBlocks uri ⟨stepStack uri [initialFrame uri] 0 A, 1,
          [(fullName (getParentStack A [initialFrame uri]) A, 0)]⟩ [B]).trace) := rfl
  rw [e1, e2]
  rw [runBlocks_trace_accum uri [B]
    (stepStack uri (stepStack uri [initialFrame uri] 0 C) 1 A) 2
    [(fullName (getParentStack C [initialFrame uri]) C, 0),
     (fullName (getParentStack A (stepStack uri [initialFrame uri] 0 C)) A, 1)]]
  rw [runBlocks_trace_accum uri [B] (stepStack uri [initialFrame uri] 0 A) 1
    [(fullName (getParentStack A [initialFrame uri]) A, 0)]]
  have h2eq : (2 : Nat) = 1 + 1 := rfl
  rw [h2eq]
  obtain ⟨c1, c2, c3⟩ := runBlocks_congr_shift uri [B]
    (stepStack uri (stepStack uri [initialFrame uri] 0 C) 1 A)
    (stepStack uri [initialFrame uri] 0 A) 1 1 hsA
  simp only [List.map_append, List.map_cons, List.map_nil]
  rw [hfnC, hfnA, c3]
  simp

/-- Witness for C3 at concrete blocks: prepending `c` shifts the `@` indices
of `a` and `a b` by one while keeping their full names. -/
theorem insertion_shifts_indices_witness :
    (discoverFromBlocks "file:///t.ts" [blockC, blockA, blockB]).2 =
      (blockC.name.trim, 0) ::
        ((discoverFromBlocks "file:///t.ts" [blockA, blockB]).2.map
          (fun p => (p.1, p.2 + 1))) :=
  insertion_shifts_indices "file:///t.ts" blockC blockA blockB
    (by decide) (by decide)

/-- Witness for C9 at a concrete stack: a suite entry ending on line 4 is
popped for a block starting on line 5, a suite entry ending on line 9 is
kept, and the file entry survives. -/
theorem getParent_pops_on_range_end_witness :
    (getParentStack sampleBlockIt
        ([sampleFrameInner, sampleFrameOuter] ++ [sampleFileFrame])).map Frame.blk =
      (([sampleFrameInner, sampleFrameOuter] ++ [sampleFileFrame]).map
        Frame.blk).dropWhile (popCond sampleBlockIt) :=
  getParent_pops_on_range_end sampleBlockIt [sampleFrameInner, sampleFrameOuter]
    sampleFileFrame rfl

end VitestExplorer
